import Mathlib

/-!
# Verification of the glob pathname pattern-expansion engine

The repository exposes the POSIX `glob` engine through a thin Linux/Alpha
wrapper (`sysdeps/unix/sysv/linux/alpha/glob64.c`) that binds the single
implementation `__new_glob` to the two external names `glob` (versioned
symbol `GLIBC_2_1`) and `glob64` (weak alias).  The engine itself
(`posix/glob.c`) is not part of the sources given here, so it is modelled
from the specification: pattern preprocessing (brace alternation, tilde
expansion), compilation into path segments, a segment matcher for `*`,
`?` and `[...]` classes with the hidden-name rule, a depth-first
directory walker over an abstract directory-access backend, and a result
collector that deduplicates, sorts and applies the no-match policy.
-/

namespace GlobSpec

/-- Modelled from the spec (§6 DirectoryAccess): an abstract filesystem
backend is a finite tree of named entries; a directory carries a
`readable` flag so that directory-open failure (permission error) can be
represented. `stat`-style existence checks are tree lookups and ignore
readability; `open`/`readNext` enumeration requires `readable = true`. -/
inductive FsTree where
  | file : FsTree
  | dir (readable : Bool) (entries : List (String × FsTree)) : FsTree
deriving Repr

/-- First entry with the given name, as a directory listing lookup. -/
def lookupEntry : List (String × FsTree) → String → Option FsTree
  | [], _ => none
  | (n, t) :: es, m => if n = m then some t else lookupEntry es m

/-- Existence check of a component path under the backend (the `stat`
capability of DirectoryAccess): follows named entries from the root. -/
def lookup : FsTree → List String → Option FsTree
  | t, [] => some t
  | .file, _ :: _ => none
  | .dir _ es, n :: rest =>
    match lookupEntry es n with
    | some t => lookup t rest
    | none => none

/-- Backend validity: names inside one directory are distinct (a real
directory listing never holds two entries of the same name). -/
def wfB : FsTree → Bool
  | .file => true
  | .dir _ es => wfL es && nodupNames (es.map Prod.fst)
where
  wfL : List (String × FsTree) → Bool
    | [] => true
    | e :: es => wfB e.2 && wfL es
  nodupNames : List String → Bool
    | [] => true
    | n :: ns => !(ns.any (fun m => m = n)) && nodupNames ns

/-- Modelled from the spec (§3 Configuration): immutable snapshot of the
recognized options.  `onError` is the §4.3 directory-open-failure
callback, taking the path (as components) and an errno-style code and
returning `true` to abort the whole expansion.  `checkLiteralExists`
is the §4.5/§9 configuration choice of whether the metacharacter-free
fast path verifies existence or returns the literal unconditionally.
`home`/`userLookup` are the user-directory lookup collaborators of §6. -/
structure Config where
  noMatchIsError : Bool
  caseFold : Bool
  followTilde : Bool
  followBraces : Bool
  sortLex : Bool
  checkLiteralExists : Bool
  onError : Option (List String → Nat → Bool)
  home : String
  userLookup : String → Option String

/-- True when the string begins with the given character. -/
def headIs (c : Char) (s : String) : Bool :=
  match s.data with
  | c' :: _ => c' = c
  | [] => false

/-- Modelled from the spec (§4.2): one character of a `[set]` class;
`a-b` ranges allowed. -/
def inSet : List Char → Char → Bool
  | a :: '-' :: b :: rest, c => (a ≤ c && c ≤ b) || inSet rest c
  | a :: rest, c => a = c || inSet rest c
  | [], _ => false

/-- Parse the inside of a bracket expression: given the characters after
`[`, return the negation flag, the set body and the remainder after `]`;
`none` when the expression is unterminated (then `[` degrades to a
literal character, §4.2). -/
def bracketSpan (ps : List Char) : Option (Bool × List Char × List Char) :=
  let (neg, ps') :=
    match ps with
    | '!' :: rest => (true, rest)
    | '^' :: rest => (true, rest)
    | _ => (false, ps)
  match go ps' [] with
  | some (body, rest) => some (neg, body, rest)
  | none => none
where
  go : List Char → List Char → Option (List Char × List Char)
    | [], _ => none
    | ']' :: rest, acc => some (acc.reverse, rest)
    | c :: rest, acc => go rest (c :: acc)

/-- Modelled from the spec (§4.2): the core wildcard matcher on character
lists, fuel-indexed so that recursion is structural (the `*` case
recurses both on a shorter pattern and on a shorter candidate).  `*`
matches zero or more characters, `?` exactly one, `[set]` one character
of the set, `[!set]`/`[^set]` the negation; an unterminated `[` is a
literal. -/
def coreMatchF : Nat → List Char → List Char → Bool
  | 0, _, _ => false
  | _ + 1, [], cs => cs.isEmpty
  | f + 1, '*' :: ps, cs =>
    coreMatchF f ps cs ||
      (match cs with
       | [] => false
       | _ :: cs' => coreMatchF f ('*' :: ps) cs')
  | f + 1, '?' :: ps, cs =>
    (match cs with
     | [] => false
     | _ :: cs' => coreMatchF f ps cs')
  | f + 1, '[' :: ps, cs =>
    (match bracketSpan ps with
     | some (neg, body, rest) =>
       match cs with
       | [] => false
       | c :: cs' => (inSet body c != neg) && coreMatchF f rest cs'
     | none =>
       match cs with
       | [] => false
       | c :: cs' => (c = '[') && coreMatchF f ps cs')
  | f + 1, p :: ps, cs =>
    (match cs with
     | [] => false
     | c :: cs' => (p = c) && coreMatchF f ps cs')

/-- The fuel `ps.length + cs.length + 1` dominates every recursion path
of `coreMatchF`, so this is the total matcher. -/
def coreMatch (ps cs : List Char) : Bool :=
  coreMatchF (ps.length + cs.length + 1) ps cs

/-- Case-fold normalization (§4.2): lowercases pattern and candidate
when `caseFold` is configured. -/
def prep (cfg : Config) (s : String) : List Char :=
  if cfg.caseFold then s.data.map Char.toLower else s.data

/-- Modelled from the spec (§4.2 Segment Matcher): decides whether a
directory entry name matches one wildcard segment.  The hidden-name rule
is applied first: a candidate beginning with `.` is matched only by a
pattern segment itself beginning with `.`. -/
def segMatch (cfg : Config) (p name : String) : Bool :=
  if headIs '.' name && !(headIs '.' p) then false
  else coreMatch (prep cfg p) (prep cfg name)

/-- A compiled path segment (§3): literal text, or a wildcard expression
kept as its pattern text and matched by `segMatch`. -/
inductive Seg where
  | lit (s : String) : Seg
  | wild (p : String) : Seg
deriving Repr, DecidableEq

/-- A segment is a wildcard when it contains `*`, `?` or `[` (§4.1). -/
def mkSeg (s : String) : Seg :=
  if s.data.any (fun c => c = '*' || c = '?' || c = '[') then .wild s else .lit s

/-- Split a raw pattern on `/` separators (accumulator-style scan). -/
def splitSlashAux : List Char → List Char → List (List Char)
  | [], acc => [acc.reverse]
  | '/' :: rest, acc => acc.reverse :: splitSlashAux rest []
  | c :: rest, acc => splitSlashAux rest (c :: acc)

/-- Path components of a pattern or path string: split on `/`, dropping
empty components (so `/a//b/` has components `a`, `b`). -/
def splitPath (s : String) : List String :=
  ((splitSlashAux s.data []).map (fun cs => String.mk cs)).filter (fun c => c ≠ "")

/-- Existence of a path string under the backend, via its components. -/
def pathExistsS (fs : FsTree) (s : String) : Bool :=
  (lookup fs (splitPath s)).isSome

/-- Modelled from the spec (§4.1 Pattern Compiler): a compiled pattern
is its `absolute` flag plus the sequence of segments. -/
structure Compiled where
  absolute : Bool
  segs : List Seg
deriving Repr, DecidableEq

/-- Compile a raw (already preprocessed) pattern string. -/
def compile (s : String) : Compiled :=
  ⟨headIs '/' s, (splitPath s).map mkSeg⟩

/-- Expansion errors (§7): `noMatch` is `NoMatchError`; `aborted p`
records a fatal abort signalled by the `on-error` callback at path `p`. -/
inductive Err where
  | noMatch : Err
  | aborted (path : List String) : Err
deriving Repr, DecidableEq

/-- Instrumented outcome of one walker call: the matched paths (in
traversal order), the number of directory reads performed, and the
depth of nested walker frames used. -/
structure WalkOut (α : Type) where
  paths : List α
  reads : Nat
  depth : Nat
deriving Repr, DecidableEq

/-- Combination of two sibling (or sequential) walker outcomes: a fatal
error on either side discards the other side's accumulated matches and
propagates; two successes concatenate paths, add the read counts and
take the larger frame depth. -/
def combineW {α : Type} :
    Except Err (WalkOut α) → Except Err (WalkOut α) → Except Err (WalkOut α)
  | .error e, _ => .error e
  | .ok _, .error e => .error e
  | .ok x, .ok y => .ok ⟨x.paths ++ y.paths, x.reads + y.reads, max x.depth y.depth⟩

/-- Is the tree a regular file? -/
def isFile : FsTree → Bool
  | .file => true
  | .dir _ _ => false

/-- Is the tree a readable directory? -/
def readableOf : FsTree → Bool
  | .file => false
  | .dir r _ => r

/-- errno-style code reported to the `on-error` callback when a
directory open fails: 20 (`ENOTDIR`) on a regular file, else 13
(`EACCES`, unreadable directory). -/
def openFailCode (t : FsTree) : Nat :=
  if isFile t then 20 else 13

/-- Modelled from the spec (§4.3 Directory Walker): depth-first descent,
one segment per frame, over the subtree `t` whose path from the root is
`pfx`.  A literal segment is a direct lookup (no directory read); a
wildcard segment opens and enumerates the directory, matching each entry
with `segMatch` and recursing; descent never passes a regular file while
segments remain.  On directory-open failure (unreadable directory, or a
wildcard applied to a file) the configured `on-error` callback decides
between fatal abort and silently skipping the branch; with no callback
the branch is skipped silently.  Matched paths are returned as component
lists relative to `t`. -/
def walk (cfg : Config) : List Seg → FsTree → List String → Except Err (WalkOut (List String))
  | [], _, _ => .ok ⟨[[]], 0, 0⟩
  | .lit s :: rest, t, pfx =>
    (match t with
     | .file => .ok ⟨[], 0, 0⟩
     | .dir _ es =>
       match lookupEntry es s with
       | none => .ok ⟨[], 0, 0⟩
       | some t' =>
         if !rest.isEmpty && isFile t' then .ok ⟨[], 0, 0⟩
         else
           (walk cfg rest t' (pfx ++ [s])).map
             (fun o => ⟨o.paths.map (fun p => s :: p), o.reads, o.depth + 1⟩))
  | .wild p :: rest, t, pfx =>
    (match t with
     | .dir true es =>
       ((es.map (fun e =>
           if segMatch cfg p e.1 then
             if !rest.isEmpty && isFile e.2 then .ok ⟨[], 0, 0⟩
             else
               (walk cfg rest e.2 (pfx ++ [e.1])).map
                 (fun o => ⟨o.paths.map (fun q => e.1 :: q), o.reads, o.depth + 1⟩)
           else .ok ⟨[], 0, 0⟩)).foldr combineW (.ok ⟨[], 0, 0⟩)).map
         (fun o => ⟨o.paths, o.reads + 1, o.depth⟩)
     | t' =>
       match cfg.onError with
       | none => .ok ⟨[], 0, 0⟩
       | some f =>
         if f pfx (openFailCode t') then .error (.aborted pfx) else .ok ⟨[], 0, 0⟩)

/-- Scan the characters after `{` for the matching top-level `}`:
returns the group body and the remainder, or `none` if unbalanced. -/
def braceScan : List Char → Nat → List Char → Option (List Char × List Char)
  | [], _, _ => none
  | '}' :: rest, 0, acc => some (acc.reverse, rest)
  | '}' :: rest, d + 1, acc => braceScan rest d ('}' :: acc)
  | '{' :: rest, d, acc => braceScan rest (d + 1) ('{' :: acc)
  | c :: rest, d, acc => braceScan rest d (c :: acc)

/-- Split a brace-group body on its top-level commas. -/
def braceSplit : List Char → Nat → List Char → List (List Char)
  | [], _, acc => [acc.reverse]
  | ',' :: rest, 0, acc => acc.reverse :: braceSplit rest 0 []
  | '{' :: rest, d, acc => braceSplit rest (d + 1) ('{' :: acc)
  | '}' :: rest, d + 1, acc => braceSplit rest d ('}' :: acc)
  | c :: rest, d, acc => braceSplit rest d (c :: acc)

/-- Locate the first `{` with a matching `}`: returns the text before,
the group body and the text after. -/
def braceFind : List Char → Option (List Char × List Char × List Char)
  | [] => none
  | '{' :: rest =>
    (match braceScan rest 0 [] with
     | some (body, after) => some ([], body, after)
     | none => none)
  | c :: rest =>
    (match braceFind rest with
     | some (before, body, after) => some (c :: before, body, after)
     | none => none)

/-- Modelled from the spec (§4.4): brace alternation, fuel-indexed (each
step strips one balanced `{...}` group, so the string length bounds the
recursion).  A pattern with no balanced group expands to itself; a group
expands to the cross-product of its top-level alternatives against the
surrounding text. -/
def braceExpandF : Nat → List Char → List (List Char)
  | 0, cs => [cs]
  | f + 1, cs =>
    match braceFind cs with
    | none => [cs]
    | some (before, body, after) =>
      if (braceSplit body 0 []).length ≤ 1 then
        -- no top-level comma: braces are kept literally, expand the rest
        (braceExpandF f after).map (fun a => before ++ '{' :: body ++ '}' :: a)
      else
        (braceSplit body 0 []).flatMap
          (fun alt => braceExpandF f (before ++ alt ++ after))

/-- Brace alternation on strings. -/
def braceExpand (s : String) : List String :=
  (braceExpandF s.data.length s.data).map (fun cs => String.mk cs)

/-- Modelled from the spec (§4.4): tilde expansion.  A leading `~` with
no name resolves to the configured home directory; `~name` resolves via
the user-directory lookup collaborator; an unresolved tilde is left as a
literal prefix (never an error). -/
def tildeExpand (cfg : Config) (s : String) : String :=
  if !cfg.followTilde then s
  else
    match s.data with
    | '~' :: rest =>
      let name := rest.takeWhile (fun c => c ≠ '/')
      let after := rest.dropWhile (fun c => c ≠ '/')
      let home? := if name.isEmpty then some cfg.home else cfg.userLookup (String.mk name)
      (match home? with
       | some h => h ++ String.mk after
       | none => s)
    | _ => s

/-- Does the raw pattern contain any wildcard/brace/tilde metacharacter
that the configuration honours? (§4.5 fast-path test.) -/
def hasMeta (cfg : Config) (s : String) : Bool :=
  s.data.any (fun c => c = '*' || c = '?' || c = '[') ||
    (cfg.followBraces && s.data.any (fun c => c = '{')) ||
    (cfg.followTilde && headIs '~' s)

/-- Modelled from the spec (§4.4): preprocessing runs strictly before
compilation — brace alternation (when enabled) then tilde expansion on
each alternative. -/
def preprocess (cfg : Config) (s : String) : List String :=
  (if cfg.followBraces then braceExpand s else [s]).map (tildeExpand cfg)

/-- Render a component path back to a path string. -/
def renderPath (absolute : Bool) (p : List String) : String :=
  (if absolute then "/" else "") ++ joinComps p
where
  joinComps : List String → String
    | [] => ""
    | [c] => c
    | c :: rest => c ++ "/" ++ joinComps rest

/-- Modelled from the spec (§4.3–§4.5): the collection stage of one
expansion call, instrumented with directory-read and frame-depth counts.
When the pattern has no honoured metacharacter, the literal fast path
returns the pattern itself — subject to the configured existence-check
policy — and never invokes the walker; otherwise each preprocessed
alternative is compiled and walked from the root, and the alternatives'
outcomes are combined by `combineW` (a fatal abort anywhere discards all
accumulated matches).  Each returned match is the pair of its rendered
path string and its component path. -/
def collectT (cfg : Config) (fs : FsTree) (pat : String) :
    Except Err (WalkOut (String × List String)) :=
  if hasMeta cfg pat then
    ((preprocess cfg pat).map (fun r =>
        (walk cfg (compile r).segs fs []).map
          (fun o => ⟨o.paths.map (fun p => (renderPath (compile r).absolute p, p)),
                     o.reads, o.depth⟩))).foldr
      combineW (.ok ⟨[], 0, 0⟩)
  else
    if cfg.checkLiteralExists && !(pathExistsS fs pat) then .ok ⟨[], 0, 0⟩
    else .ok ⟨[(pat, splitPath pat)], 0, 0⟩

/-- First-occurrence deduplication of exact string duplicates (§4.5). -/
def dedupFirst : List String → List String
  | [] => []
  | x :: xs => x :: (dedupFirst xs).filter (fun y => y ≠ x)

/-- Lexicographic comparison of character lists by code-point value
(equivalently, by UTF-8 byte value, since UTF-8 preserves code-point
order). -/
def charListLe : List Char → List Char → Bool
  | [], _ => true
  | _ :: _, [] => false
  | a :: as, b :: bs => if a = b then charListLe as bs else decide (a < b)

/-- Lexicographic byte-value comparison of path strings (§4.5
`sort=lexicographic`). -/
def strLe (a b : String) : Bool :=
  charListLe a.data b.data

/-- `strLe` as a relation, for the sorting step. -/
def strLeR (a b : String) : Prop :=
  strLe a b = true

instance strLeRDec : DecidableRel strLeR :=
  fun a b => inferInstanceAs (Decidable (strLe a b = true))

/-- The ordered result list of the collector: deduplicate, then sort
lexicographically by byte value when configured, else keep traversal
order. -/
def finList (cfg : Config) (l : List String) : List String :=
  if cfg.sortLex then (dedupFirst l).insertionSort strLeR else dedupFirst l

/-- Modelled from the spec (§4.5 Result Collector): `finalize` fails
with `NoMatchError` exactly when the match multiset is empty and
`no-match-is-error` is set; otherwise it returns the deduplicated,
ordered sequence. -/
def finalize (cfg : Config) (l : List String) : Except Err (List String) :=
  if l.isEmpty && cfg.noMatchIsError then .error .noMatch
  else .ok (finList cfg l)

/-- Modelled from the spec (§6 public call surface): one expansion call,
producing the final ordered path list or an error. -/
def expand (cfg : Config) (fs : FsTree) (pat : String) : Except Err (List String) :=
  match collectT cfg fs pat with
  | .error e => .error e
  | .ok o => finalize cfg (o.paths.map Prod.fst)

/-- Modelled from the spec / `posix/glob.c` (included by the wrapper but
not among the given sources): the single engine implementation that the
Alpha wrapper names `__new_glob`. -/
def new_glob (cfg : Config) (fs : FsTree) (pat : String) : Except Err (List String) :=
  expand cfg fs pat

/-- `versioned_symbol (libc, __new_glob, glob, GLIBC_2_1)` in
`sysdeps/unix/sysv/linux/alpha/glob64.c`: the external name `glob`
binds to `__new_glob`. -/
def glob : Config → FsTree → String → Except Err (List String) :=
  new_glob

/-- `weak_alias (__new_glob, glob64)` in
`sysdeps/unix/sysv/linux/alpha/glob64.c`: the external name `glob64`
binds to the same `__new_glob`. -/
def glob64 : Config → FsTree → String → Except Err (List String) :=
  new_glob

/-- Forget the instrumentation of a walker outcome, keeping only the
matched paths (or the error). -/
def pathsOf {α : Type} (r : Except Err (WalkOut α)) : Except Err (List α) :=
  r.map (fun o => o.paths)

/-- The treatment of a single directory entry by the walker's wildcard
case, named for reasoning: skip non-matching entries and files standing
before remaining segments, descend otherwise. -/
def entryStep (cfg : Config) (p : String) (rest : List Seg) (pfx : List String)
    (e : String × FsTree) : Except Err (WalkOut (List String)) :=
  if segMatch cfg p e.1 then
    if !rest.isEmpty && isFile e.2 then .ok ⟨[], 0, 0⟩
    else
      (walk cfg rest e.2 (pfx ++ [e.1])).map
        (fun o => ⟨o.paths.map (fun q => e.1 :: q), o.reads, o.depth + 1⟩)
  else .ok ⟨[], 0, 0⟩

/-! ### Concrete fixtures used to exercise the model -/

/-- Default configuration: lexicographic sort, existence-checked literal
fast path, no error callback, home directory `/home/alice`. -/
def cfgDflt : Config :=
  ⟨false, false, true, true, true, true, none, "/home/alice", fun _ => none⟩

/-- Like `cfgDflt` but `no-match-is-error` is set. -/
def cfgNM : Config :=
  ⟨true, false, true, true, true, true, none, "/home/alice", fun _ => none⟩

/-- Like `cfgDflt` but the literal fast path skips the existence check
(the unconditional-literal policy of §4.5/§9). -/
def cfgNoCheck : Config :=
  ⟨false, false, true, true, true, false, none, "/home/alice", fun _ => none⟩

/-- Like `cfgDflt` but with an `on-error` callback that always aborts. -/
def cfgAbort : Config :=
  ⟨false, false, true, true, true, true, some (fun _ _ => true), "/home/alice", fun _ => none⟩

/-- The `/data` directory of the spec's §8 example. -/
def fsData : FsTree :=
  .dir true [("data", .dir true
    [("a.txt", .file), ("b.txt", .file), (".hidden.txt", .file), ("notes.md", .file)])]

/-- A home tree `/home/alice` with no entry `x`, for the `~/x` example. -/
def fsHome : FsTree :=
  .dir true [("home", .dir true [("alice", .dir true [])])]

/-- An empty root directory. -/
def fsEmpty : FsTree :=
  .dir true []

/-- A root holding one unreadable subdirectory `logs`. -/
def fsBad : FsTree :=
  .dir true [("logs", .dir false [])]

end GlobSpec

namespace GlobSpec

example : segMatch ⟨false, false, true, true, true, true, none, "", fun _ => none⟩ "*" ".hidden" = false := by decide
example : segMatch ⟨false, false, true, true, true, true, none, "", fun _ => none⟩ ".*" ".hidden" = true := by decide
example : segMatch ⟨false, false, true, true, true, true, none, "", fun _ => none⟩ "*.txt" "a.txt" = true := by decide
example : segMatch ⟨false, false, true, true, true, true, none, "", fun _ => none⟩ "[a-c]x" "bx" = true := by decide
example : segMatch ⟨false, false, true, true, true, true, none, "", fun _ => none⟩ "[!a-c]x" "bx" = false := by decide
example : compile "/data/*.txt" = ⟨true, [.lit "data", .wild "*.txt"]⟩ := by decide

/-! ### Structural lemmas about the walker's combination of outcomes -/

theorem combineW_ok_empty_left {α : Type} (x : Except Err (WalkOut α)) :
    combineW (.ok ⟨[], 0, 0⟩) x = x := by
  cases x with
  | error e => rfl
  | ok o => simp [combineW]

theorem combineW_assoc {α : Type} (a b c : Except Err (WalkOut α)) :
    combineW (combineW a b) c = combineW a (combineW b c) := by
  cases a <;> cases b <;> cases c <;>
    simp [combineW, List.append_assoc, Nat.add_assoc, Nat.max_assoc]

theorem foldr_combineW_append {α : Type} (l₁ l₂ : List (Except Err (WalkOut α))) :
    (l₁ ++ l₂).foldr combineW (.ok ⟨[], 0, 0⟩) =
      combineW (l₁.foldr combineW (.ok ⟨[], 0, 0⟩)) (l₂.foldr combineW (.ok ⟨[], 0, 0⟩)) := by
  induction l₁ with
  | nil => simp [combineW_ok_empty_left]
  | cons a l ih => simp [List.foldr_cons, ih, combineW_assoc]

theorem combineW_ok_inv {α : Type} {a b : Except Err (WalkOut α)} {o : WalkOut α}
    (h : combineW a b = .ok o) :
    ∃ x y, a = .ok x ∧ b = .ok y ∧
      o = ⟨x.paths ++ y.paths, x.reads + y.reads, max x.depth y.depth⟩ := by
  cases a with
  | error e => simp [combineW] at h
  | ok x =>
    cases b with
    | error e => simp [combineW] at h
    | ok y => exact ⟨x, y, rfl, rfl, by simpa [combineW] using h.symm⟩

/-! ### Equation lemmas for the walker, one per source branch -/

theorem walk_nil (cfg : Config) (t : FsTree) (pfx : List String) :
    walk cfg [] t pfx = .ok ⟨[[]], 0, 0⟩ := rfl

theorem walk_lit_file (cfg : Config) (s : String) (rest : List Seg) (pfx : List String) :
    walk cfg (.lit s :: rest) .file pfx = .ok ⟨[], 0, 0⟩ := rfl

theorem walk_lit_absent (cfg : Config) {es : List (String × FsTree)} {s : String}
    (r : Bool) (rest : List Seg) (pfx : List String) (h : lookupEntry es s = none) :
    walk cfg (.lit s :: rest) (.dir r es) pfx = .ok ⟨[], 0, 0⟩ := by
  simp [walk, h]

theorem walk_lit_present (cfg : Config) {es : List (String × FsTree)} {s : String}
    {t' : FsTree} (r : Bool) (rest : List Seg) (pfx : List String)
    (h : lookupEntry es s = some t') :
    walk cfg (.lit s :: rest) (.dir r es) pfx =
      if !rest.isEmpty && isFile t' then .ok ⟨[], 0, 0⟩
      else
        (walk cfg rest t' (pfx ++ [s])).map
          (fun o => ⟨o.paths.map (fun p => s :: p), o.reads, o.depth + 1⟩) := by
  simp [walk, h]

theorem walk_wild_dir (cfg : Config) (p : String) (rest : List Seg)
    (es : List (String × FsTree)) (pfx : List String) :
    walk cfg (.wild p :: rest) (.dir true es) pfx =
      ((es.map (entryStep cfg p rest pfx)).foldr combineW (.ok ⟨[], 0, 0⟩)).map
        (fun o => ⟨o.paths, o.reads + 1, o.depth⟩) := rfl

theorem walk_wild_openfail_none (cfg : Config) (p : String) (rest : List Seg)
    {t : FsTree} (pfx : List String) (hf : isFile t || !readableOf t)
    (h : cfg.onError = none) :
    walk cfg (.wild p :: rest) t pfx = .ok ⟨[], 0, 0⟩ := by
  cases t with
  | file => simp [walk, h]
  | dir r es =>
    cases r with
    | false => simp [walk, h]
    | true => simp [readableOf, isFile] at hf

theorem walk_wild_openfail_some (cfg : Config) (p : String) (rest : List Seg)
    {t : FsTree} (pfx : List String) {f : List String → Nat → Bool}
    (hf : isFile t || !readableOf t) (h : cfg.onError = some f) :
    walk cfg (.wild p :: rest) t pfx =
      if f pfx (openFailCode t) then .error (.aborted pfx) else .ok ⟨[], 0, 0⟩ := by
  cases t with
  | file => simp [walk, h, openFailCode, isFile]
  | dir r es =>
    cases r with
    | false => simp [walk, h, openFailCode, isFile]
    | true => simp [readableOf, isFile] at hf

/-! ### Inversion helpers -/

theorem exceptMap_ok_inv {α β : Type} {g : α → β} {x : Except Err α} {o : β}
    (h : x.map g = .ok o) : ∃ o', x = .ok o' ∧ o = g o' := by
  cases x with
  | error e => simp [Except.map] at h
  | ok a => exact ⟨a, rfl, by simpa [Except.map] using h.symm⟩

theorem wfB_dir_wfL {r : Bool} {es : List (String × FsTree)}
    (h : wfB (.dir r es) = true) : wfB.wfL es = true := by
  simp [wfB] at h; exact h.1

theorem wfB_dir_nodup {r : Bool} {es : List (String × FsTree)}
    (h : wfB (.dir r es) = true) : wfB.nodupNames (es.map Prod.fst) = true := by
  simp [wfB] at h; exact h.2

theorem wfL_mem {es : List (String × FsTree)} :
    wfB.wfL es = true → ∀ e ∈ es, wfB e.2 = true := by
  induction es with
  | nil => intro _ e he; simp at he
  | cons a es ih =>
    intro h e he
    simp [wfB.wfL] at h
    rcases List.mem_cons.mp he with rfl | he'
    · exact h.1
    · exact ih h.2 e he'

theorem lookupEntry_mem {es : List (String × FsTree)} {s : String} {t' : FsTree}
    (h : lookupEntry es s = some t') : (s, t') ∈ es := by
  induction es with
  | nil => simp [lookupEntry] at h
  | cons a es ih =>
    obtain ⟨n, t⟩ := a
    by_cases hn : n = s
    · subst hn
      simp [lookupEntry] at h
      subst h
      exact List.mem_cons_self _ _
    · rw [lookupEntry, if_neg hn] at h
      exact List.mem_cons_of_mem _ (ih h)

theorem lookupEntry_of_mem_nodup {es : List (String × FsTree)} {n : String} {t : FsTree}
    (hm : (n, t) ∈ es) (hn : wfB.nodupNames (es.map Prod.fst) = true) :
    lookupEntry es n = some t := by
  induction es with
  | nil => simp at hm
  | cons a es ih =>
    obtain ⟨m, tm⟩ := a
    rw [List.map_cons, wfB.nodupNames] at hn
    obtain ⟨h1, h2⟩ := Bool.and_eq_true_iff.mp hn
    rcases List.mem_cons.mp hm with hh | ht
    · cases hh
      simp [lookupEntry]
    · by_cases hmn : m = n
      · subst hmn
        have : (es.map Prod.fst).any (fun x => x = m) = true :=
          List.any_eq_true.mpr ⟨m, List.mem_map.mpr ⟨(m, t), ht, rfl⟩, by simp⟩
        rw [this] at h1
        simp at h1
      · rw [lookupEntry, if_neg hmn]
        exact ih ht h2

/-- Structure of a successful wildcard-directory enumeration: every
matched path is one matching entry's name prefixed to a path produced by
the recursive walk below that entry. -/
theorem entriesFold_ok_mem (cfg : Config) (q : String) (rest : List Seg)
    (pfx : List String) (es : List (String × FsTree)) :
    ∀ of, (es.map (entryStep cfg q rest pfx)).foldr combineW (.ok ⟨[], 0, 0⟩) = .ok of →
      ∀ p ∈ of.paths, ∃ n t' o' p', (n, t') ∈ es ∧ p = n :: p' ∧
        walk cfg rest t' (pfx ++ [n]) = .ok o' ∧ p' ∈ o'.paths := by
  induction es with
  | nil =>
    intro of h p hp
    simp at h
    rw [← h] at hp
    simp at hp
  | cons e es ih =>
    intro of h p hp
    rw [List.map_cons, List.foldr_cons] at h
    obtain ⟨x, y, hx, hy, ho⟩ := combineW_ok_inv h
    rw [ho] at hp
    rcases List.mem_append.mp hp with hpl | hpr
    · -- the path comes from the head entry
      rw [entryStep] at hx
      by_cases hm : segMatch cfg q e.1 = true
      · rw [if_pos hm] at hx
        by_cases hskip : (!rest.isEmpty && isFile e.2) = true
        · rw [if_pos hskip] at hx
          cases hx; simp at hpl
        · rw [if_neg hskip] at hx
          obtain ⟨o', hw, hxo⟩ := exceptMap_ok_inv hx
          rw [hxo] at hpl
          obtain ⟨p', hp', hpe⟩ := List.mem_map.mp hpl
          exact ⟨e.1, e.2, o', p', List.mem_cons_self _ _, hpe.symm, hw, hp'⟩
      · rw [if_neg hm] at hx
        cases hx; simp at hpl
    · obtain ⟨n, t', o', p', hmem, hpe, hw, hp'⟩ := ih y hy p hpr
      exact ⟨n, t', o', p', List.mem_cons_of_mem _ hmem, hpe, hw, hp'⟩

/-- Every path reported by a successful walk resolves under the subtree
it was walked from (backend listings assumed duplicate-free). -/
theorem walk_ok_lookup (cfg : Config) :
    ∀ (segs : List Seg) (t : FsTree) (pfx : List String) (o : WalkOut (List String)),
      wfB t = true → walk cfg segs t pfx = .ok o →
      ∀ p ∈ o.paths, (lookup t p).isSome = true := by
  intro segs
  induction segs with
  | nil =>
    intro t pfx o _ h p hp
    rw [walk_nil] at h
    cases h
    simp at hp
    subst hp
    simp [lookup]
  | cons seg rest ih =>
    intro t pfx o hwf h p hp
    cases seg with
    | lit s =>
      cases t with
      | file => rw [walk_lit_file] at h; cases h; simp at hp
      | dir r es =>
        cases hle : lookupEntry es s with
        | none =>
          rw [walk_lit_absent cfg r rest pfx hle] at h; cases h; simp at hp
        | some t' =>
          rw [walk_lit_present cfg r rest pfx hle] at h
          by_cases hskip : (!rest.isEmpty && isFile t') = true
          · rw [if_pos hskip] at h; cases h; simp at hp
          · rw [if_neg hskip] at h
            obtain ⟨o', hw, hoo⟩ := exceptMap_ok_inv h
            rw [hoo] at hp
            obtain ⟨p', hp', hpe⟩ := List.mem_map.mp hp
            have hwt' : wfB t' = true :=
              wfL_mem (wfB_dir_wfL hwf) _ (lookupEntry_mem hle)
            have hlp := ih t' (pfx ++ [s]) o' hwt' hw p' hp'
            rw [← hpe]
            simpa [lookup, hle] using hlp
    | wild q =>
      by_cases hopen : (isFile t || !readableOf t) = true
      · cases honf : cfg.onError with
        | none =>
          rw [walk_wild_openfail_none cfg q rest pfx hopen honf] at h
          cases h; simp at hp
        | some f =>
          rw [walk_wild_openfail_some cfg q rest pfx hopen honf] at h
          by_cases hab : f pfx (openFailCode t) = true
          · rw [if_pos hab] at h; cases h
          · rw [if_neg hab] at h; cases h; simp at hp
      · cases t with
        | file => simp [isFile] at hopen
        | dir r es =>
          cases r with
          | false => simp [readableOf] at hopen
          | true =>
            rw [walk_wild_dir] at h
            obtain ⟨of, hfo, hoo⟩ := exceptMap_ok_inv h
            rw [hoo] at hp
            obtain ⟨n, t', o', p', hmem, hpe, hw, hp'⟩ :=
              entriesFold_ok_mem cfg q rest pfx es of hfo p hp
            have hwt' : wfB t' = true := wfL_mem (wfB_dir_wfL hwf) _ hmem
            have hlp := ih t' (pfx ++ [n]) o' hwt' hw p' hp'
            have hle : lookupEntry es n = some t' :=
              lookupEntry_of_mem_nodup hmem (wfB_dir_nodup hwf)
            rw [hpe]
            simpa [lookup, hle] using hlp

/-! ### Frame-depth accounting -/

theorem entriesFold_ok_depth (cfg : Config) (q : String) (rest : List Seg)
    (pfx : List String) :
    ∀ (es : List (String × FsTree)) (of : WalkOut (List String)),
      (es.map (entryStep cfg q rest pfx)).foldr combineW (.ok ⟨[], 0, 0⟩) = .ok of →
      (∀ e ∈ es, ∀ o', walk cfg rest e.2 (pfx ++ [e.1]) = .ok o' → o'.depth ≤ rest.length) →
      of.depth ≤ rest.length + 1 := by
  intro es
  induction es with
  | nil =>
    intro of h _
    simp at h
    rw [← h]
    simp
  | cons e es ih =>
    intro of h hb
    rw [List.map_cons, List.foldr_cons] at h
    obtain ⟨x, y, hx, hy, ho⟩ := combineW_ok_inv h
    rw [ho]
    have hyd : y.depth ≤ rest.length + 1 :=
      ih y hy (fun e' he' => hb e' (List.mem_cons_of_mem _ he'))
    have hxd : x.depth ≤ rest.length + 1 := by
      rw [entryStep] at hx
      by_cases hm : segMatch cfg q e.1 = true
      · rw [if_pos hm] at hx
        by_cases hskip : (!rest.isEmpty && isFile e.2) = true
        · rw [if_pos hskip] at hx; cases hx; simp
        · rw [if_neg hskip] at hx
          obtain ⟨o', hw, hxo⟩ := exceptMap_ok_inv hx
          rw [hxo]
          have := hb e (List.mem_cons_self _ _) o' hw
          simpa using Nat.succ_le_succ this
      · rw [if_neg hm] at hx; cases hx; simp
    simpa using Nat.max_le.mpr ⟨hxd, hyd⟩

/-- The frame depth of a successful walk never exceeds the number of
remaining pattern segments. -/
theorem walk_ok_depth (cfg : Config) :
    ∀ (segs : List Seg) (t : FsTree) (pfx : List String) (o : WalkOut (List String)),
      walk cfg segs t pfx = .ok o → o.depth ≤ segs.length := by
  intro segs
  induction segs with
  | nil =>
    intro t pfx o h
    rw [walk_nil] at h
    cases h
    simp
  | cons seg rest ih =>
    intro t pfx o h
    cases seg with
    | lit s =>
      cases t with
      | file => rw [walk_lit_file] at h; cases h; simp
      | dir r es =>
        cases hle : lookupEntry es s with
        | none => rw [walk_lit_absent cfg r rest pfx hle] at h; cases h; simp
        | some t' =>
          rw [walk_lit_present cfg r rest pfx hle] at h
          by_cases hskip : (!rest.isEmpty && isFile t') = true
          · rw [if_pos hskip] at h; cases h; simp
          · rw [if_neg hskip] at h
            obtain ⟨o', hw, hoo⟩ := exceptMap_ok_inv h
            rw [hoo]
            have := ih t' (pfx ++ [s]) o' hw
            simpa using Nat.succ_le_succ this
    | wild q =>
      by_cases hopen : (isFile t || !readableOf t) = true
      · cases honf : cfg.onError with
        | none =>
          rw [walk_wild_openfail_none cfg q rest pfx hopen honf] at h
          cases h; simp
        | some f =>
          rw [walk_wild_openfail_some cfg q rest pfx hopen honf] at h
          by_cases hab : f pfx (openFailCode t) = true
          · rw [if_pos hab] at h; cases h
          · rw [if_neg hab] at h; cases h; simp
      · cases t with
        | file => simp [isFile] at hopen
        | dir r es =>
          cases r with
          | false => simp [readableOf] at hopen
          | true =>
            rw [walk_wild_dir] at h
            obtain ⟨of, hfo, hoo⟩ := exceptMap_ok_inv h
            rw [hoo]
            have := entriesFold_ok_depth cfg q rest pfx es of hfo
              (fun e _ o' hw => ih e.2 (pfx ++ [e.1]) o' hw)
            simpa [List.length_cons] using this

/-! ### Deduplication -/

theorem mem_dedupFirst {l : List String} {a : String} : a ∈ dedupFirst l ↔ a ∈ l := by
  induction l with
  | nil => simp [dedupFirst]
  | cons x xs ih =>
    by_cases hax : a = x
    · subst hax; simp [dedupFirst]
    · simp [dedupFirst, List.mem_filter, ih, hax]

theorem nodup_dedupFirst (l : List String) : (dedupFirst l).Nodup := by
  induction l with
  | nil => simp [dedupFirst]
  | cons x xs ih =>
    rw [dedupFirst, List.nodup_cons]
    exact ⟨fun hx => by simp [List.mem_filter] at hx, ih.filter _⟩

theorem dedupFirst_eq_self {l : List String} (h : l.Nodup) : dedupFirst l = l := by
  induction l with
  | nil => rfl
  | cons x xs ih =>
    rw [List.nodup_cons] at h
    rw [dedupFirst, ih h.2, List.filter_eq_self.mpr]
    intro a ha
    have hax : a ≠ x := fun hax => h.1 (by rw [← hax]; exact ha)
    simpa using hax

theorem count_dedupFirst {l : List String} {a : String} (h : a ∈ l) :
    (dedupFirst l).count a = 1 := by
  have h1 : (dedupFirst l).count a ≤ 1 :=
    List.nodup_iff_count_le_one.mp (nodup_dedupFirst l) a
  have h2 : 0 < (dedupFirst l).count a :=
    List.count_pos_iff.mpr (mem_dedupFirst.mpr h)
  omega

/-! ### The byte-value order used by the sorting step -/

theorem charListLe_total : ∀ as bs : List Char,
    charListLe as bs = true ∨ charListLe bs as = true := by
  intro as
  induction as with
  | nil => intro bs; left; rfl
  | cons a as ih =>
    intro bs
    cases bs with
    | nil => right; rfl
    | cons b bs =>
      by_cases hab : a = b
      · subst hab
        simpa [charListLe] using ih bs
      · rcases lt_or_gt_of_ne hab with hlt | hgt
        · left; simp [charListLe, hab, hlt]
        · right; simp [charListLe, Ne.symm hab, hgt]

theorem charListLe_trans : ∀ as bs cs : List Char,
    charListLe as bs = true → charListLe bs cs = true → charListLe as cs = true := by
  intro as
  induction as with
  | nil => intro bs cs _ _; rfl
  | cons a as ih =>
    intro bs cs h1 h2
    cases bs with
    | nil => simp [charListLe] at h1
    | cons b bs =>
      cases cs with
      | nil => simp [charListLe] at h2
      | cons c cs =>
        by_cases hab : a = b <;> by_cases hbc : b = c
        · subst hab; subst hbc
          simp [charListLe] at h1 h2 ⊢
          exact ih bs cs h1 h2
        · subst hab
          simp [charListLe, hbc] at h2 ⊢
          exact h2
        · subst hbc
          simp [charListLe, hab] at h1 ⊢
          exact h1
        · simp [charListLe, hab, hbc] at h1 h2
          have hac : a < c := lt_trans h1 h2
          simp [charListLe, ne_of_lt hac, hac]

theorem charListLe_antisymm : ∀ as bs : List Char,
    charListLe as bs = true → charListLe bs as = true → as = bs := by
  intro as
  induction as with
  | nil =>
    intro bs _ h2
    cases bs with
    | nil => rfl
    | cons b bs => simp [charListLe] at h2
  | cons a as ih =>
    intro bs h1 h2
    cases bs with
    | nil => simp [charListLe] at h1
    | cons b bs =>
      by_cases hab : a = b
      · subst hab
        simp [charListLe] at h1 h2
        rw [ih bs h1 h2]
      · simp [charListLe, hab, Ne.symm hab] at h1 h2
        exact absurd h2 (not_lt_of_gt h1)

instance : IsTotal String strLeR :=
  ⟨fun a b => by
    rcases charListLe_total a.data b.data with h | h
    · exact Or.inl h
    · exact Or.inr h⟩

instance : IsTrans String strLeR :=
  ⟨fun a b c h1 h2 => charListLe_trans a.data b.data c.data h1 h2⟩

instance : IsAntisymm String strLeR :=
  ⟨fun a b h1 h2 => by
    cases a with
    | mk la =>
      cases b with
      | mk lb =>
        have := charListLe_antisymm la lb h1 h2
        rw [this]⟩

theorem mem_finList {cfg : Config} {l : List String} {s : String}
    (h : s ∈ finList cfg l) : s ∈ l := by
  rw [finList] at h
  by_cases hs : cfg.sortLex = true
  · rw [if_pos hs] at h
    exact mem_dedupFirst.mp ((List.perm_insertionSort strLeR (dedupFirst l)).mem_iff.mp h)
  · rw [if_neg hs] at h
    exact mem_dedupFirst.mp h

/-! ### The star pattern -/

theorem coreMatchF_star_all : ∀ (cs : List Char) (f : Nat),
    cs.length + 2 ≤ f → coreMatchF f ['*'] cs = true := by
  intro cs
  induction cs with
  | nil =>
    intro f hf
    match f, hf with
    | k + 2, _ => simp [coreMatchF]
  | cons c cs ih =>
    intro f hf
    match f, hf with
    | k + 1, hf =>
      have : coreMatchF k ['*'] cs = true := ih k (by simp at hf; omega)
      simp [coreMatchF, this]

theorem coreMatch_dotStar (cs : List Char) : coreMatch ['.', '*'] ('.' :: cs) = true := by
  have hstep :
      coreMatch ['.', '*'] ('.' :: cs) =
        coreMatchF (['.', '*'].length + ('.' :: cs).length) ['*'] cs := by
    simp [coreMatch, coreMatchF]
  rw [hstep]
  exact coreMatchF_star_all cs _ (by simp; omega)

/-! ### Structure of the alternatives' combination in `collectT` -/

theorem altsFold_ok_mem (cfg : Config) (fs : FsTree) :
    ∀ (rs : List String) (o : WalkOut (String × List String)),
      (rs.map (fun r =>
          (walk cfg (compile r).segs fs []).map
            (fun w => ⟨w.paths.map (fun p => (renderPath (compile r).absolute p, p)),
                       w.reads, w.depth⟩))).foldr combineW (.ok ⟨[], 0, 0⟩) = .ok o →
      ∀ pr ∈ o.paths, ∃ r o' p', walk cfg (compile r).segs fs [] = .ok o' ∧
        p' ∈ o'.paths ∧ pr = (renderPath (compile r).absolute p', p') := by
  intro rs
  induction rs with
  | nil =>
    intro o h pr hpr
    simp at h
    rw [← h] at hpr
    simp at hpr
  | cons r rs ih =>
    intro o h pr hpr
    rw [List.map_cons, List.foldr_cons] at h
    obtain ⟨x, y, hx, hy, ho⟩ := combineW_ok_inv h
    rw [ho] at hpr
    rcases List.mem_append.mp hpr with hpl | hpr'
    · obtain ⟨o', hw, hxo⟩ := exceptMap_ok_inv hx
      rw [hxo] at hpl
      obtain ⟨p', hp', hpe⟩ := List.mem_map.mp hpl
      exact ⟨r, o', p', hw, hp', hpe.symm⟩
    · exact ih y hy pr hpr'

/-- Every match reported by a successful collection resolves under the
backend (assuming duplicate-free listings and the existence-checking
literal policy). -/
theorem collectT_ok_lookup (cfg : Config) (fs : FsTree) (pat : String)
    (hchk : cfg.checkLiteralExists = true) (hwf : wfB fs = true) :
    ∀ o, collectT cfg fs pat = .ok o →
      ∀ pr ∈ o.paths, (lookup fs pr.2).isSome = true := by
  intro o h pr hpr
  by_cases hm : hasMeta cfg pat = true
  · rw [collectT, if_pos hm] at h
    obtain ⟨r, o', p', hw, hp', hpe⟩ := altsFold_ok_mem cfg fs (preprocess cfg pat) o h pr hpr
    have := walk_ok_lookup cfg (compile r).segs fs [] o' hwf hw p' hp'
    rw [hpe]
    exact this
  · rw [collectT, if_neg hm] at h
    rw [hchk] at h
    by_cases hex : pathExistsS fs pat = true
    · rw [hex] at h
      simp at h
      rw [← h] at hpr
      simp at hpr
      rw [hpr]
      simpa [pathExistsS] using hex
    · rw [Bool.not_eq_true] at hex
      rw [hex] at h
      simp at h
      rw [← h] at hpr
      simp at hpr

/-! ### Paths-only view of walker outcomes -/

theorem pathsOf_map_reads {x : Except Err (WalkOut (List String))} :
    pathsOf (x.map (fun o => ⟨o.paths, o.reads + 1, o.depth⟩)) = pathsOf x := by
  cases x <;> rfl

theorem pathsOf_combineW_mid_empty {a b : Except Err (WalkOut (List String))}
    (r d : Nat) :
    pathsOf (combineW a (combineW (.ok ⟨[], r, d⟩) b)) = pathsOf (combineW a b) := by
  cases a <;> cases b <;> simp [combineW, pathsOf, Except.map]

theorem headIs_data {c : Char} {s : String} (h : headIs c s = true) :
    ∃ cs, s.data = c :: cs := by
  unfold headIs at h
  cases hd : s.data with
  | nil => rw [hd] at h; simp at h
  | cons c' cs =>
    rw [hd] at h
    simp at h
    subst h
    exact ⟨cs, rfl⟩

/-! ### The claims -/

/-- C2: a candidate name beginning with `.` is never matched by a
segment not itself beginning with `.` (in particular not by `*`), while
the segment `.*` does match it. -/
theorem segMatch_hidden_law (cfg : Config) (p name : String)
    (hn : headIs '.' name = true) :
    (headIs '.' p = false → segMatch cfg p name = false) ∧
      segMatch cfg ".*" name = true := by
  constructor
  · intro hp
    rw [segMatch, if_pos]
    rw [hn, hp]
    rfl
  · rw [segMatch, if_neg]
    · obtain ⟨cs, hcs⟩ := headIs_data hn
      by_cases hcf : cfg.caseFold = true
      · rw [prep, prep, if_pos hcf, if_pos hcf, hcs]
        show coreMatch (['.', '*'].map Char.toLower) ('.' :: cs.map Char.toLower) = true
        exact coreMatch_dotStar _
      · rw [prep, prep, if_neg hcf, if_neg hcf, hcs]
        exact coreMatch_dotStar cs
    · rw [hn]
      simp [headIs]

/-- Closed instance of C2 at the spec's own example inputs. -/
theorem segMatch_hidden_law_witness :
    segMatch cfgDflt "*" ".hidden" = false ∧ segMatch cfgDflt ".*" ".hidden" = true :=
  ⟨(segMatch_hidden_law cfgDflt "*" ".hidden" (by decide)).1 rfl,
    (segMatch_hidden_law cfgDflt "*" ".hidden" (by decide)).2⟩

/-- C3: a pattern with no honoured metacharacter takes the literal fast
path: no walker invocation, zero directory reads, zero frame depth, and
the result is exactly the literal pattern, subject to the configured
existence-check policy. -/
theorem expand_literal_fastpath (cfg : Config) (fs : FsTree) (pat : String)
    (h : hasMeta cfg pat = false) :
    collectT cfg fs pat =
      .ok ⟨if cfg.checkLiteralExists && !(pathExistsS fs pat) then []
           else [(pat, splitPath pat)], 0, 0⟩ ∧
    expand cfg fs pat =
      finalize cfg
        (if cfg.checkLiteralExists && !(pathExistsS fs pat) then [] else [pat]) := by
  have hc : collectT cfg fs pat =
      .ok ⟨if cfg.checkLiteralExists && !(pathExistsS fs pat) then []
           else [(pat, splitPath pat)], 0, 0⟩ := by
    rw [collectT, if_neg (by rw [h]; simp)]
    by_cases hb : (cfg.checkLiteralExists && !(pathExistsS fs pat)) = true
    · rw [if_pos hb, if_pos hb]
    · rw [if_neg hb, if_neg hb]
  refine ⟨hc, ?_⟩
  rw [expand, hc]
  by_cases hb : (cfg.checkLiteralExists && !(pathExistsS fs pat)) = true
  · rw [if_pos hb, if_pos hb]
    rfl
  · rw [if_neg hb, if_neg hb]
    rfl

/-- Closed instance of C3: the literal pattern `data` over the `/data`
fixture. -/
theorem expand_literal_fastpath_witness :
    collectT cfgDflt fsData "data" =
      .ok ⟨if cfgDflt.checkLiteralExists && !(pathExistsS fsData "data") then []
           else [("data", splitPath "data")], 0, 0⟩ ∧
    expand cfgDflt fsData "data" =
      finalize cfgDflt
        (if cfgDflt.checkLiteralExists && !(pathExistsS fsData "data") then []
         else ["data"]) :=
  expand_literal_fastpath cfgDflt fsData "data" (by decide)

/-- C10: on Linux/Alpha both external entry points resolve to the single
implementation `__new_glob`; `glob64` is a weak alias and `glob` the
`GLIBC_2_1` versioned symbol, so the two names agree on every input. -/
theorem glob64_eq_glob :
    (∀ (cfg : Config) (fs : FsTree) (pat : String),
       glob64 cfg fs pat = glob cfg fs pat) ∧
    glob = new_glob ∧ glob64 = new_glob :=
  ⟨fun _ _ _ => rfl, rfl, rfl⟩

/-- C4: the combination discipline of sibling/sequential walker outcomes
is all-or-nothing — once any branch ends in a fatal error, the combined
outcome is that error and every match accumulated by the earlier,
successful branches is discarded; a fatal collection error likewise
surfaces from `expand` as the bare error (no partial path list). -/
theorem fatal_all_or_nothing :
    (∀ (α : Type) (l₁ l₂ : List (Except Err (WalkOut α))) (x : WalkOut α) (e : Err),
       l₁.foldr combineW (.ok ⟨[], 0, 0⟩) = .ok x →
       l₂.foldr combineW (.ok ⟨[], 0, 0⟩) = .error e →
       (l₁ ++ l₂).foldr combineW (.ok ⟨[], 0, 0⟩) = .error e) ∧
    (∀ (cfg : Config) (fs : FsTree) (pat : String) (e : Err),
       collectT cfg fs pat = .error e → expand cfg fs pat = .error e) := by
  constructor
  · intro α l₁ l₂ x e h₁ h₂
    rw [foldr_combineW_append, h₁, h₂]
    rfl
  · intro cfg fs pat e h
    rw [expand, h]

/-- Closed instance of C4: a successful branch's match is dropped when a
later branch aborts, and an aborting callback surfaces from `expand`. -/
theorem fatal_all_or_nothing_witness :
    (([Except.ok ⟨[["a"]], 1, 1⟩] ++ [Except.error (Err.aborted ["logs"])] :
        List (Except Err (WalkOut (List String)))).foldr combineW
      (.ok ⟨[], 0, 0⟩)) = .error (.aborted ["logs"]) ∧
    expand cfgAbort fsBad "*/*" = .error (.aborted ["logs"]) :=
  ⟨fatal_all_or_nothing.1 (List String) [Except.ok ⟨[["a"]], 1, 1⟩]
      [Except.error (Err.aborted ["logs"])] ⟨[["a"]], 1, 1⟩ (.aborted ["logs"]) rfl rfl,
    fatal_all_or_nothing.2 cfgAbort fsBad "*/*" (.aborted ["logs"]) rfl⟩

/-- C5: when opening a directory fails during wildcard descent, the
branch is skipped silently (the final matches are exactly those of the
readable siblings) if no `on-error` callback is configured; if a
callback is configured and returns non-zero, the whole expansion stops
with a fatal abort, whatever the earlier siblings produced. -/
theorem walk_openfail_policy (cfg : Config) (p q : String) (rest' : List Seg)
    (pfx : List String) (n : String) (bs : List (String × FsTree))
    (es₁ es₂ : List (String × FsTree)) (hm : segMatch cfg p n = true) :
    (cfg.onError = none →
      pathsOf (walk cfg (.wild p :: .wild q :: rest')
          (.dir true (es₁ ++ (n, .dir false bs) :: es₂)) pfx) =
        pathsOf (walk cfg (.wild p :: .wild q :: rest') (.dir true (es₁ ++ es₂)) pfx)) ∧
    (∀ (f : List String → Nat → Bool) (w : WalkOut (List String)),
      cfg.onError = some f → f (pfx ++ [n]) 13 = true →
      walk cfg (.wild p :: .wild q :: rest') (.dir true es₁) pfx = .ok w →
      walk cfg (.wild p :: .wild q :: rest')
          (.dir true (es₁ ++ (n, .dir false bs) :: es₂)) pfx =
        .error (.aborted (pfx ++ [n]))) := by
  constructor
  · intro hnone
    rw [walk_wild_dir, walk_wild_dir, pathsOf_map_reads, pathsOf_map_reads]
    rw [List.map_append, List.map_cons, foldr_combineW_append, List.foldr_cons]
    rw [List.map_append, foldr_combineW_append]
    have hstep : entryStep cfg p (.wild q :: rest') pfx (n, .dir false bs) =
        .ok ⟨[], 0, 1⟩ := by
      rw [entryStep, if_pos hm, if_neg (by simp [isFile])]
      rw [walk_wild_openfail_none cfg q rest' (pfx ++ [n]) (by simp [isFile, readableOf]) hnone]
      rfl
    rw [hstep]
    exact pathsOf_combineW_mid_empty 0 1
  · intro f w hf hfc hw
    rw [walk_wild_dir] at hw
    obtain ⟨w', hw', hww⟩ := exceptMap_ok_inv hw
    rw [walk_wild_dir, List.map_append, List.map_cons, foldr_combineW_append,
      List.foldr_cons]
    have hstep : entryStep cfg p (.wild q :: rest') pfx (n, .dir false bs) =
        .error (.aborted (pfx ++ [n])) := by
      rw [entryStep, if_pos hm, if_neg (by simp [isFile])]
      rw [walk_wild_openfail_some cfg q rest' (pfx ++ [n]) (by simp [isFile, readableOf]) hf]
      have h13 : openFailCode ((n, FsTree.dir false bs)).2 = 13 := rfl
      rw [h13, if_pos hfc]
      rfl
    rw [hstep, hw']
    rfl

/-- C6: a path string occurring in the match multiset (for instance from
several overlapping brace alternatives) occurs exactly once in the
finalized result. -/
theorem finalize_dedup_law (cfg : Config) (l : List String) (s : String)
    (h : s ∈ l) :
    ∃ out, finalize cfg l = .ok out ∧ out.count s = 1 := by
  have hne : l.isEmpty = false := by
    cases l with
    | nil => simp at h
    | cons a l => rfl
  refine ⟨finList cfg l, ?_, ?_⟩
  · rw [finalize, hne]
    simp
  · rw [finList]
    by_cases hs : cfg.sortLex = true
    · rw [if_pos hs]
      rw [(List.perm_insertionSort strLeR (dedupFirst l)).count_eq]
      exact count_dedupFirst h
    · rw [if_neg hs]
      exact count_dedupFirst h

/-- Closed instance of C6 at a duplicated brace-style match. -/
theorem finalize_dedup_law_witness :
    ∃ out, finalize cfgDflt ["a/c.log", "b/c.log", "a/c.log"] = .ok out ∧
      out.count "a/c.log" = 1 :=
  finalize_dedup_law cfgDflt ["a/c.log", "b/c.log", "a/c.log"] "a/c.log" (by decide)

/-- C7: under `sort=lexicographic` the finalized sequence is
non-decreasing in byte value, and finalizing an already-finalized
multiset returns it unchanged. -/
theorem finalize_sort_law (cfg : Config) (l : List String)
    (hs : cfg.sortLex = true) :
    (finList cfg l).Sorted strLeR ∧ finList cfg (finList cfg l) = finList cfg l := by
  have hfin : finList cfg l = (dedupFirst l).insertionSort strLeR := by
    rw [finList, if_pos hs]
  constructor
  · rw [hfin]
    exact List.sorted_insertionSort strLeR (dedupFirst l)
  · rw [hfin, finList, if_pos hs]
    have hnd : ((dedupFirst l).insertionSort strLeR).Nodup :=
      (List.perm_insertionSort strLeR (dedupFirst l)).nodup_iff.mpr (nodup_dedupFirst l)
    rw [dedupFirst_eq_self hnd]
    exact (List.sorted_insertionSort strLeR (dedupFirst l)).insertionSort_eq

/-- Closed instance of C7 on an unsorted multiset with a duplicate. -/
theorem finalize_sort_law_witness :
    (finList cfgDflt ["b", "a", "b"]).Sorted strLeR ∧
      finList cfgDflt (finList cfgDflt ["b", "a", "b"]) = finList cfgDflt ["b", "a", "b"] :=
  finalize_sort_law cfgDflt ["b", "a", "b"] rfl

/-- C8: an expansion whose collected match set is empty fails with
`NoMatchError` exactly when `no-match-is-error` is set, and otherwise
returns the empty sequence without error. -/
theorem expand_empty_policy (cfg : Config) (fs : FsTree) (pat : String)
    (o : WalkOut (String × List String)) (hc : collectT cfg fs pat = .ok o)
    (hp : o.paths = []) :
    expand cfg fs pat = if cfg.noMatchIsError then .error .noMatch else .ok [] := by
  rw [expand, hc]
  show finalize cfg (o.paths.map Prod.fst) = _
  rw [hp]
  by_cases hb : cfg.noMatchIsError = true
  · simp [finalize, hb]
  · rw [Bool.not_eq_true] at hb
    simp [finalize, finList, dedupFirst, hb]

/-- Closed instance of C8 at the spec's `~/x` example: home directory
`/home/alice`, no such path, `no-match-is-error` set. -/
theorem expand_empty_policy_witness :
    expand cfgNM fsHome "~/x" = .error .noMatch :=
  expand_empty_policy cfgNM fsHome "~/x" ⟨[], 0, 2⟩ rfl rfl

/-- C9: the frame depth of a successful walk is bounded by the number of
compiled pattern segments — never by the size or depth of the directory
tree being enumerated. -/
theorem walk_depth_bounded (cfg : Config) (segs : List Seg) (t : FsTree)
    (pfx : List String) (o : WalkOut (List String))
    (h : walk cfg segs t pfx = .ok o) : o.depth ≤ segs.length :=
  walk_ok_depth cfg segs t pfx o h

/-- Closed instance of C9 over the `/data` fixture. -/
theorem walk_depth_bounded_witness :
    (⟨[["data"]], 1, 1⟩ : WalkOut (List String)).depth ≤ [Seg.wild "*"].length :=
  walk_depth_bounded cfgDflt [.wild "*"] fsData [] ⟨[["data"]], 1, 1⟩ rfl

/-- Closed instance of C5 (silent-skip side): an unreadable `secret`
branch between readable siblings contributes nothing, and the outcome's
paths equal those of the listing with the branch removed. -/
theorem walk_openfail_policy_witness :
    pathsOf (walk cfgDflt [.wild "*", .wild "*"]
        (.dir true ([("a", .dir true [("x", .file)])] ++
          ("secret", .dir false []) :: [("b", .dir true [("y", .file)])])) []) =
      pathsOf (walk cfgDflt [.wild "*", .wild "*"]
        (.dir true ([("a", .dir true [("x", .file)])] ++
          [("b", .dir true [("y", .file)])])) []) :=
  (walk_openfail_policy cfgDflt "*" "*" [] [] "secret" []
      [("a", .dir true [("x", .file)])] [("b", .dir true [("y", .file)])] (by decide)).1 rfl

/-- C1 fails as universally stated: under the unconditional-literal
policy (`checkLiteralExists = false`, the §4.5/§9 configuration choice)
a metacharacter-free pattern is returned as a match even though no such
entry exists under the backend. -/
theorem expand_fabricates_without_check :
    expand cfgNoCheck fsEmpty "nope" = .ok ["nope"] ∧
      pathExistsS fsEmpty "nope" = false :=
  ⟨rfl, rfl⟩

/-- C1 (amended): whenever the existence-checking literal policy is
enabled and the backend's listings are duplicate-free, every path string
returned by `expand` is the name of a collected match whose component
path resolves under the backend — no fabricated paths. -/
theorem expand_no_fabrication (cfg : Config) (fs : FsTree) (pat : String)
    (hchk : cfg.checkLiteralExists = true) (hwf : wfB fs = true)
    (o : WalkOut (String × List String)) (out : List String)
    (hc : collectT cfg fs pat = .ok o) (he : expand cfg fs pat = .ok out) :
    ∀ s ∈ out, ∃ pr, pr ∈ o.paths ∧ pr.1 = s ∧ (lookup fs pr.2).isSome = true := by
  intro s hs
  have he' : finalize cfg (o.paths.map Prod.fst) = .ok out := by
    rw [expand, hc] at he
    exact he
  rw [finalize] at he'
  by_cases hb : ((o.paths.map Prod.fst).isEmpty && cfg.noMatchIsError) = true
  · rw [if_pos hb] at he'
    exact absurd he' (by simp)
  · rw [if_neg hb] at he'
    have hout : out = finList cfg (o.paths.map Prod.fst) := by
      injection he' with h
      exact h.symm
    rw [hout] at hs
    obtain ⟨pr, hpr, hfst⟩ := List.mem_map.mp (mem_finList hs)
    exact ⟨pr, hpr, hfst, collectT_ok_lookup cfg fs pat hchk hwf o hc pr hpr⟩

/-- Closed instance of the amended C1 at the spec's `/data/*.txt`
example. -/
theorem expand_no_fabrication_witness :
    ∃ pr, pr ∈ ([("/data/a.txt", ["data", "a.txt"]), ("/data/b.txt", ["data", "b.txt"])] :
        List (String × List String)) ∧ pr.1 = "/data/a.txt" ∧
      (lookup fsData pr.2).isSome = true :=
  expand_no_fabrication cfgDflt fsData "/data/*.txt" rfl (by decide)
    ⟨[("/data/a.txt", ["data", "a.txt"]), ("/data/b.txt", ["data", "b.txt"])], 1, 2⟩
    ["/data/a.txt", "/data/b.txt"] rfl rfl "/data/a.txt" (by decide)

end GlobSpec

namespace GlobSpec

example : segMatch ⟨false, false, true, true, true, true, none, "", fun _ => none⟩ "*" ".hidden" = false := by decide
example : segMatch ⟨false, false, true, true, true, true, none, "", fun _ => none⟩ ".*" ".hidden" = true := by decide
example : segMatch ⟨false, false, true, true, true, true, none, "", fun _ => none⟩ "*.txt" "a.txt" = true := by decide
example : segMatch ⟨false, false, true, true, true, true, none, "", fun _ => none⟩ "[a-c]x" "bx" = true := by decide
example : segMatch ⟨false, false, true, true, true, true, none, "", fun _ => none⟩ "[!a-c]x" "bx" = false := by decide
example : compile "/data/*.txt" = ⟨true, [.lit "data", .wild "*.txt"]⟩ := by decide

end GlobSpec
